import Mathlib

/-!
Shallow embedding of the `mpchash` multi-probe consistent-hashing crate.

The `SkipMap` backing `HashRing` (`src/lib.rs`) is modelled as its ascending
list of `(position, node)` entries; ordered range queries on the map become
`List.filter` over that list.  `u64` ring positions are modelled as `Nat`:
every subtraction performed by the source is non-negative in `u64`, so `Nat`
truncated subtraction agrees, and `u64::MAX` is the constant `MAXP`.
Hash values of keys and nodes are abstracted: each query takes the relevant
hash outputs as explicit arguments, since the hash primitive (xxh3) is an
external pluggable strategy.
-/

namespace Mpchash

/-- `u64::MAX`, i.e. `RingPosition::MAX` in `src/lib.rs`. -/
def MAXP : Nat := 2 ^ 64 - 1

/-- `DEFAULT_PROBE_COUNT` from `src/lib.rs` (number of probing attempts). -/
def DEFAULT_PROBE_COUNT : Nat := 23

/-- Ring state: the ascending `(position, node)` entry list of the `SkipMap`. -/
abbrev Ring (α : Type) : Type := List (Nat × α)

/-- The `SkipMap` representation invariant: entries strictly ascending by
position (keys unique and sorted). -/
def sortedRing {α : Type} (ring : Ring α) : Prop :=
  List.Pairwise (fun a b => a.1 < b.1) ring

/-- `distance` from `src/lib.rs`: clockwise distance between ring positions;
`MAX - pos1 + pos2` when `pos1 > pos2`, else `pos2 - pos1`. -/
def distance (pos1 pos2 : Nat) : Nat :=
  if pos1 > pos2 then MAXP - pos1 + pos2 else pos2 - pos1

/-- `HashRing::tokens(start, Clockwise)` from `src/lib.rs`:
`positions.range(start..)` chained with `positions.range(0..start)`. -/
def tokensCW {α : Type} (ring : Ring α) (start : Nat) : Ring α :=
  ring.filter (fun e => decide (start ≤ e.1)) ++ ring.filter (fun e => decide (e.1 < start))

/-- `HashRing::tokens(start, CounterClockwise)` from `src/lib.rs`:
`positions.range(..=start).rev()` chained with
`positions.range((Excluded(start), Unbounded)).rev()`. -/
def tokensCCW {α : Type} (ring : Ring α) (start : Nat) : Ring α :=
  (ring.filter (fun e => decide (e.1 ≤ start))).reverse
    ++ (ring.filter (fun e => decide (start < e.1))).reverse

/-- Modelled from the spec: the probe sequence generator.  The source
delegates to the external `hash_iter` crate (`Partitioner::positions` in
`src/partitioner.rs`), which is not part of this repository; the spec says
probes are `p_i = h1 + i*h2` with wraparound (modulo `2^64`) addition and
multiplication, where `h1`, `h2` are the two seeded hashes of the key. -/
def positions (h1 h2 : Nat) (k : Nat) : List Nat :=
  (List.range k).map (fun i => (h1 + i * h2) % 2 ^ 64)

/-- The probe loop of `HashRing::primary_token` (`src/lib.rs` lines 208-231):
iterates over the probe positions tracking `(min_distance, min_token)`,
updating on strict `<`, and returning `None` from the whole function as soon
as a probe sees an empty clockwise traversal. -/
def primaryTokenGo {α : Type} (ring : Ring α) :
    List Nat → Nat → Option (Nat × α) → Option (Nat × α)
  | [], _, minToken => minToken
  | pos :: rest, minDist, minToken =>
    match (tokensCW ring pos).head? with
    | some token =>
      if distance pos token.1 < minDist then
        primaryTokenGo ring rest (distance pos token.1) (some token)
      else
        primaryTokenGo ring rest minDist minToken
    | none => none

/-- `HashRing::primary_token` from `src/lib.rs`: `min_distance` starts at
`RingPosition::MAX` and `min_token` at `None`. -/
def primary_token {α : Type} (ring : Ring α) (probes : List Nat) : Option (Nat × α) :=
  primaryTokenGo ring probes MAXP none

/-- `HashRing::replicas` from `src/lib.rs`:
`self.tokens(self.position(key), Clockwise).take(k)`.  `keyPos` stands for
`self.position(key)`, the default-seed hash of the key. -/
def replicas {α : Type} (ring : Ring α) (keyPos : Nat) (k : Nat) : Ring α :=
  (tokensCW ring keyPos).take k

/-- `KeyRange` from `src/range.rs`, specialised to `RingPosition = u64`
(so `Idx::min_value() = 0`).  The Rust field `end` is a Lean keyword and is
embedded as `stop`. -/
structure KeyRange where
  start : Nat
  stop : Nat
  deriving DecidableEq

/-- `KeyRange::is_inverted`: `start >= end`. -/
def KeyRange.is_inverted (r : KeyRange) : Bool :=
  decide (r.stop ≤ r.start)

/-- `KeyRange::ends_at_origin`: `end == Idx::min_value()`. -/
def KeyRange.ends_at_origin (r : KeyRange) : Bool :=
  decide (r.stop = 0)

/-- `KeyRange::is_wrapping`: inverted and not ending at the origin. -/
def KeyRange.is_wrapping (r : KeyRange) : Bool :=
  r.is_inverted && !r.ends_at_origin

/-- `KeyRange::covers_whole_ring`: `start == end`. -/
def KeyRange.covers_whole_ring (r : KeyRange) : Bool :=
  decide (r.start = r.stop)

/-- `KeyRange::contains`: `(start..).contains(item)` and/or
`(..end).contains(item)` depending on invertedness. -/
def KeyRange.contains (r : KeyRange) (item : Nat) : Bool :=
  if r.is_inverted then decide (r.start ≤ item) || decide (item < r.stop)
  else decide (r.start ≤ item) && decide (item < r.stop)

/-- `KeyRange::is_overlapping`. -/
def KeyRange.is_overlapping (r other : KeyRange) : Bool :=
  r.contains other.start || other.contains r.start

/-- `KeyRange::is_continuous`. -/
def KeyRange.is_continuous (r other : KeyRange) : Bool :=
  if r.covers_whole_ring || other.covers_whole_ring then false
  else decide (r.stop = other.start) || decide (other.stop = r.start)

/-- `KeyRange::merged` from `src/range.rs` lines 89-132.  The tuple
destructuring `let (a, b) = if self.is_inverted() { (self, other) } else
{ (other, self) }` is embedded as the two `let` bindings below. -/
def KeyRange.merged (r other : KeyRange) : Option KeyRange :=
  if r.covers_whole_ring || other.covers_whole_ring then some ⟨0, 0⟩
  else if r.is_overlapping other || r.is_continuous other then
    let p : Nat × Nat :=
      if (r.is_inverted && other.is_inverted) || !(r.is_inverted || other.is_inverted) then
        (min r.start other.start, max r.stop other.stop)
      else
        let a := if r.is_inverted then r else other
        let b := if r.is_inverted then other else r
        if a.start ≤ b.stop then (min a.start b.start, a.stop)
        else (a.start, max a.stop b.stop)
    if p.1 = p.2 then some ⟨0, 0⟩ else some ⟨p.1, p.2⟩
  else none

/-- `KeyRange::size` from `src/range.rs` lines 144-150 (for `RingPosition`). -/
def KeyRange.size (r : KeyRange) : Nat :=
  if r.is_inverted then MAXP - (r.start - r.stop) else r.stop - r.start

/-- `HashRing::key_range` from `src/lib.rs` lines 299-306: `None` on an empty
ring; otherwise the start is `tokens(pos, Clockwise).next_back()` mapped to
its position with default `0` (`map_or(0, ...)`), and the end is `pos`. -/
def key_range {α : Type} (ring : Ring α) (pos : Nat) : Option KeyRange :=
  if ring.isEmpty then none
  else
    some ⟨(match (tokensCW ring pos).getLast? with
           | some t => t.1
           | none => 0), pos⟩

/-- `HashRing::intervals` from `src/lib.rs` lines 164-167:
`self.key_range(self.position(node)).map(|range| vec![range])`.  `nodePos`
stands for `self.position(node)`, the default-seed hash of the node. -/
def intervals {α : Type} (ring : Ring α) (nodePos : Nat) : Option (List KeyRange) :=
  (key_range ring nodePos).map (fun r => [r])

/-- State effect of `HashRing::insert` (`self.positions.insert(pos, node)`):
`SkipMap` insertion into the sorted entry list, overwriting an existing
entry at the same position. -/
def ringInsert {α : Type} (pos : Nat) (n : α) : Ring α → Ring α
  | [] => [(pos, n)]
  | e :: rest =>
    if pos < e.1 then (pos, n) :: e :: rest
    else if pos = e.1 then (pos, n) :: rest
    else e :: ringInsert pos n rest

/-- State effect of `HashRing::remove` (`self.positions.remove(&pos)`), with
`pos` the node's recomputed hash position: deletes the entry at `pos`. -/
def ringRemove {α : Type} (pos : Nat) : Ring α → Ring α
  | [] => []
  | e :: rest => if e.1 = pos then rest else e :: ringRemove pos rest

/-- Map lookup on the entry list (the observable used to state what the
mutators do to the ring state). -/
def valueAt {α : Type} (pos : Nat) : Ring α → Option α
  | [] => none
  | e :: rest => if e.1 = pos then some e.2 else valueAt pos rest

/-- The value returned to the caller by `HashRing::insert` in `src/lib.rs`
lines 119-121: the Rust function body is `self.positions.insert(pos, node);`
with a trailing semicolon, so the function returns the unit value. -/
def insertReturn {α : Type} (_ring : Ring α) (_pos : Nat) (_n : α) : Unit :=
  ()

/-- The value returned to the caller by `HashRing::remove` in `src/lib.rs`
lines 140-143: the Rust function body discards `SkipMap::remove`'s result
and returns the unit value. -/
def removeReturn {α : Type} (_ring : Ring α) (_pos : Nat) : Unit :=
  ()

/-- Written from the spec's words (§4.3 `merged`), for the refinement claim:
whole-ring short-circuit to `[0,0)`; overlapping-or-continuous: matching
invertedness takes `[min(starts), max(ends))`; differing invertedness names
the inverted range `a` and the other `b`, giving `[min(a.start,b.start),
a.end)` when `a.start <= b.end` and `[a.start, max(a.end,b.end))` otherwise;
a result with equal endpoints collapses to `[0,0)`; otherwise no merge. -/
def mergedSpec (a b : KeyRange) : Option KeyRange :=
  if a.covers_whole_ring || b.covers_whole_ring then some ⟨0, 0⟩
  else if a.is_overlapping b || a.is_continuous b then
    let p : Nat × Nat :=
      if a.is_inverted = b.is_inverted then
        (min a.start b.start, max a.stop b.stop)
      else if a.is_inverted then
        if a.start ≤ b.stop then (min a.start b.start, a.stop)
        else (a.start, max a.stop b.stop)
      else
        if b.start ≤ a.stop then (min b.start a.start, b.stop)
        else (b.start, max b.stop a.stop)
    if p.1 = p.2 then some ⟨0, 0⟩ else some ⟨p.1, p.2⟩
  else none

theorem is_overlapping_comm (a b : KeyRange) :
    a.is_overlapping b = b.is_overlapping a := by
  unfold KeyRange.is_overlapping
  exact Bool.or_comm _ _

theorem is_continuous_comm (a b : KeyRange) :
    a.is_continuous b = b.is_continuous a := by
  unfold KeyRange.is_continuous
  rw [Bool.or_comm a.covers_whole_ring, Bool.or_comm (decide (a.stop = b.start))]

/-- Claim C6: `merged` follows the stated algebra: whole-ring short-circuit
to the canonical `[0,0)`, min/max union for matching invertedness, the
left/right-touch rule for differing invertedness, collapse of equal
endpoints to `[0,0)`, and absence when neither overlapping nor continuous;
together with the spec's concrete examples. -/
theorem merged_claim :
    (∀ a b : KeyRange, a.merged b = mergedSpec a b)
    ∧ (∀ (s : Nat) (b : KeyRange), (KeyRange.mk s s).merged b = some ⟨0, 0⟩)
    ∧ (KeyRange.mk 5 10).merged ⟨50, 100⟩ = none
    ∧ (KeyRange.mk 5 10).merged ⟨10, 100⟩ = some ⟨5, 100⟩ := by
  refine ⟨?_, ?_, by decide, by decide⟩
  · intro a b
    unfold KeyRange.merged mergedSpec
    cases hai : a.is_inverted <;> cases hbi : b.is_inverted <;> simp [hai, hbi]
  · intro s b
    simp [KeyRange.merged, KeyRange.covers_whole_ring]

/-- Claim C10: `merged` is commutative. -/
theorem merged_comm (a b : KeyRange) : a.merged b = b.merged a := by
  unfold KeyRange.merged
  rw [is_overlapping_comm, is_continuous_comm,
    Bool.or_comm a.covers_whole_ring]
  cases hai : a.is_inverted <;> cases hbi : b.is_inverted <;>
    simp [hai, hbi, Nat.min_comm, Nat.max_comm]

/-- Claim C7: `contains` is the inverted/non-inverted membership test, with
the spec's concrete examples. -/
theorem contains_claim :
    (∀ (r : KeyRange) (x : Nat),
      r.contains x = true ↔
        (if r.stop ≤ r.start then r.start ≤ x ∨ x < r.stop
         else r.start ≤ x ∧ x < r.stop))
    ∧ (KeyRange.mk 10 5).contains 0 = true
    ∧ (KeyRange.mk 10 5).contains 7 = false
    ∧ (KeyRange.mk 5 10).contains 7 = true
    ∧ (KeyRange.mk 5 10).contains 10 = false := by
  refine ⟨?_, by decide, by decide, by decide, by decide⟩
  intro r x
  by_cases h : r.stop ≤ r.start <;>
    simp [KeyRange.contains, KeyRange.is_inverted, h]

/-- Claim C9: `size` is `MAX - (start - end)` for inverted ranges and
`end - start` otherwise; whole-ring ranges report `MAX`, and the spec's
concrete instances hold. -/
theorem size_claim :
    (∀ s e : Nat, (KeyRange.mk s e).size = if e ≤ s then MAXP - (s - e) else e - s)
    ∧ (∀ s : Nat, (KeyRange.mk s s).size = MAXP)
    ∧ (KeyRange.mk 10 10).size = MAXP
    ∧ (KeyRange.mk 10 9).size = MAXP - 1
    ∧ (KeyRange.mk 5 10).size = 5 := by
  refine ⟨?_, ?_, by decide, by decide, by decide⟩
  · intro s e
    by_cases h : e ≤ s <;> simp [KeyRange.size, KeyRange.is_inverted, h]
  · intro s
    simp [KeyRange.size, KeyRange.is_inverted]

theorem valueAt_ringInsert_self {α : Type} (pos : Nat) (n : α) :
    ∀ ring : Ring α, valueAt pos (ringInsert pos n ring) = some n := by
  intro ring
  induction ring with
  | nil => simp [ringInsert, valueAt]
  | cons e rest ih =>
    by_cases h1 : pos < e.1
    · simp [ringInsert, h1, valueAt]
    · by_cases h2 : pos = e.1
      · simp [ringInsert, h1, h2, valueAt]
      · have h3 : e.1 ≠ pos := fun h => h2 h.symm
        simp [ringInsert, h1, h2, valueAt, h3, ih]

theorem valueAt_ringInsert_ne {α : Type} (pos q : Nat) (n : α) (hq : q ≠ pos) :
    ∀ ring : Ring α, valueAt q (ringInsert pos n ring) = valueAt q ring := by
  have h3 : ¬(pos = q) := fun h => hq h.symm
  intro ring
  induction ring with
  | nil => simp [ringInsert, valueAt, h3]
  | cons e rest ih =>
    by_cases h1 : pos < e.1
    · simp [ringInsert, h1, valueAt, h3]
    · by_cases h2 : pos = e.1
      · have h4 : ¬(e.1 = q) := by rw [← h2]; exact h3
        simp [ringInsert, h1, h2, valueAt, h3, h4]
      · simp [ringInsert, h1, h2, valueAt, ih]

theorem valueAt_ringRemove_ne {α : Type} (pos q : Nat) (hq : q ≠ pos) :
    ∀ ring : Ring α, valueAt q (ringRemove pos ring) = valueAt q ring := by
  intro ring
  induction ring with
  | nil => simp [ringRemove]
  | cons e rest ih =>
    by_cases h1 : e.1 = pos
    · have h2 : e.1 ≠ q := fun h => hq (h ▸ h1)
      have h3 : ¬(pos = q) := fun h => hq h.symm
      simp [ringRemove, h1, valueAt, h2, h3]
    · simp [ringRemove, h1, valueAt, ih]

theorem valueAt_eq_none_of_forall {α : Type} (pos : Nat) :
    ∀ ring : Ring α, (∀ e ∈ ring, e.1 ≠ pos) → valueAt pos ring = none := by
  intro ring
  induction ring with
  | nil => intro _; rfl
  | cons e rest ih =>
    intro h
    have he : e.1 ≠ pos := h e (List.mem_cons_self e rest)
    simp only [valueAt, he, if_neg]
    exact ih (fun e' he' => h e' (List.mem_cons_of_mem e he'))

theorem valueAt_ringRemove_self {α : Type} (pos : Nat) :
    ∀ ring : Ring α, sortedRing ring → valueAt pos (ringRemove pos ring) = none := by
  intro ring
  induction ring with
  | nil => intro _; rfl
  | cons e rest ih =>
    intro hs
    rcases List.pairwise_cons.mp hs with ⟨hlt, hrest⟩
    by_cases h1 : e.1 = pos
    · simp only [ringRemove, if_pos h1]
      exact valueAt_eq_none_of_forall pos rest
        (fun e' he' => Nat.ne_of_gt (h1 ▸ hlt e' he'))
    · simp only [ringRemove, if_neg h1, valueAt]
      exact ih hrest

/-- Claim C8 counterexample: `HashRing::insert` and `HashRing::remove` return
the unit value, so replacing the occupant `1` at position `5` returns exactly
the same value as inserting into an empty ring; the claimed previous-occupant
results (`some 1` versus `none`) are distinct, so the return value cannot be
the previous occupant. -/
theorem mutators_counterexample :
    insertReturn [((5 : Nat), (1 : Nat))] 5 2 = insertReturn ([] : Ring Nat) 5 2
    ∧ removeReturn [((5 : Nat), (1 : Nat))] 5 = removeReturn ([] : Ring Nat) 5
    ∧ some (1 : Nat) ≠ (none : Option Nat) :=
  ⟨rfl, rfl, by decide⟩

/-- Claim C8 (amended): `insert(position, node)` and `remove(node)` return no
value (unit); their effect on the ring state is that `insert` places `node`
at `position`, silently overwriting any previous occupant (last write wins),
and `remove` deletes the entry at the node's recomputed position, leaving
every other position untouched. -/
theorem mutators_claim {α : Type} (ring : Ring α) (pos q : Nat) (n : α)
    (hs : sortedRing ring) :
    valueAt pos (ringInsert pos n ring) = some n
    ∧ (q ≠ pos → valueAt q (ringInsert pos n ring) = valueAt q ring)
    ∧ valueAt pos (ringRemove pos ring) = none
    ∧ (q ≠ pos → valueAt q (ringRemove pos ring) = valueAt q ring)
    ∧ insertReturn ring pos n = ()
    ∧ removeReturn ring pos = () :=
  ⟨valueAt_ringInsert_self pos n ring,
   fun hq => valueAt_ringInsert_ne pos q n hq ring,
   valueAt_ringRemove_self pos ring hs,
   fun hq => valueAt_ringRemove_ne pos q hq ring,
   rfl, rfl⟩

/-- Witness for the amended C8 theorem at a concrete ring. -/
theorem mutators_claim_witness :
    valueAt 5 (ringInsert 5 (2 : Nat) [((5 : Nat), (1 : Nat))]) = some 2
    ∧ valueAt 9 (ringInsert 5 (2 : Nat) [((5 : Nat), (1 : Nat))]) =
        valueAt 9 [((5 : Nat), (1 : Nat))]
    ∧ valueAt 5 (ringRemove 5 [((5 : Nat), (1 : Nat))]) = none :=
  ⟨(mutators_claim [((5 : Nat), (1 : Nat))] 5 9 2 (by simp [sortedRing])).1,
   (mutators_claim [((5 : Nat), (1 : Nat))] 5 9 2 (by simp [sortedRing])).2.1 (by decide),
   (mutators_claim [((5 : Nat), (1 : Nat))] 5 9 2 (by simp [sortedRing])).2.2.1⟩


theorem tokensCW_ne_nil {α : Type} (ring : Ring α) (p : Nat) (hne : ring ≠ []) :
    tokensCW ring p ≠ [] := by
  cases ring with
  | nil => exact absurd rfl hne
  | cons a rest =>
    intro hcontra
    unfold tokensCW at hcontra
    rcases List.append_eq_nil.mp hcontra with ⟨hl, hr⟩
    by_cases hp : p ≤ a.1
    · have ha : a ∈ (a :: rest).filter (fun e => decide (p ≤ e.1)) :=
        List.mem_filter.mpr ⟨List.mem_cons_self a rest, by simpa using hp⟩
      rw [hl] at ha
      exact absurd ha (List.not_mem_nil a)
    · have ha : a ∈ (a :: rest).filter (fun e => decide (e.1 < p)) :=
        List.mem_filter.mpr ⟨List.mem_cons_self a rest, by simpa using Nat.lt_of_not_le hp⟩
      rw [hr] at ha
      exact absurd ha (List.not_mem_nil a)

theorem tokensCW_head_isSome {α : Type} (ring : Ring α) (p : Nat) (hne : ring ≠ []) :
    ∃ t, (tokensCW ring p).head? = some t := by
  cases h : tokensCW ring p with
  | nil => exact absurd h (tokensCW_ne_nil ring p hne)
  | cons t l => exact ⟨t, rfl⟩

/-- The distance from a probe to its clockwise owner, as in the loop body of
`primary_token` (with `MAXP` as a dummy value on an empty traversal, which
never arises on a nonempty ring). -/
def probeDist {α : Type} (ring : Ring α) (p : Nat) : Nat :=
  match (tokensCW ring p).head? with
  | some t => distance p t.1
  | none => MAXP

/-- Written from the spec's words: the first element of the list attaining
the minimal value of `d` (ties broken towards the earlier element). -/
def firstArgmin (d : Nat → Nat) : List Nat → Option Nat
  | [] => none
  | p :: rest =>
    match firstArgmin d rest with
    | none => some p
    | some q => if d p ≤ d q then some p else some q

/-- The value the probe loop yields from an arbitrary accumulator state
`(md, mt)`, phrased through `firstArgmin`. -/
def goSpec {α : Type} (ring : Ring α) (probes : List Nat) (md : Nat)
    (mt : Option (Nat × α)) : Option (Nat × α) :=
  match firstArgmin (probeDist ring) probes with
  | none => mt
  | some q => if probeDist ring q < md then (tokensCW ring q).head? else mt

/-- Written from the spec's words (§4.2 primary-owner algorithm), amended by
the behaviour at distance exactly `MAX`: the clockwise owner of the first
probe attaining the overall minimal distance, provided that distance is
strictly below `RingPosition::MAX`; `None` otherwise. -/
def specPrimaryToken {α : Type} (ring : Ring α) (probes : List Nat) :
    Option (Nat × α) :=
  match firstArgmin (probeDist ring) probes with
  | none => none
  | some q => if probeDist ring q < MAXP then (tokensCW ring q).head? else none

theorem specPrimaryToken_eq_goSpec {α : Type} (ring : Ring α) (probes : List Nat) :
    specPrimaryToken ring probes = goSpec ring probes MAXP none := by
  unfold specPrimaryToken goSpec
  cases firstArgmin (probeDist ring) probes <;> rfl

theorem firstArgmin_ne_none {d : Nat → Nat} (p : Nat) (l : List Nat) :
    firstArgmin d (p :: l) ≠ none := by
  unfold firstArgmin
  cases firstArgmin d l with
  | none => simp
  | some q => by_cases h : d p ≤ d q <;> simp [h]

theorem firstArgmin_eq_none_imp {d : Nat → Nat} :
    ∀ l : List Nat, firstArgmin d l = none → l = [] := by
  intro l
  cases l with
  | nil => intro _; rfl
  | cons p rest => intro h; exact absurd h (firstArgmin_ne_none p rest)

theorem firstArgmin_min {d : Nat → Nat} :
    ∀ (l : List Nat) (q : Nat), firstArgmin d l = some q → ∀ p ∈ l, d q ≤ d p := by
  intro l
  induction l with
  | nil => intro q h; cases h
  | cons a rest ih =>
    intro q h p hp
    unfold firstArgmin at h
    cases hfar : firstArgmin d rest with
    | none =>
      rw [hfar] at h
      have hq : q = a := by cases h; rfl
      have hrest : rest = [] := firstArgmin_eq_none_imp rest hfar
      subst hq
      subst hrest
      rcases List.mem_cons.mp hp with hpa | hpr
      · exact hpa ▸ Nat.le_refl _
      · cases hpr
    | some q' =>
      rw [hfar] at h
      have h2 : (if d a ≤ d q' then some a else some q') = some q := h
      by_cases hle : d a ≤ d q'
      · rw [if_pos hle] at h2
        have hq : q = a := by cases h2; rfl
        subst hq
        rcases List.mem_cons.mp hp with hpa | hpr
        · exact hpa ▸ Nat.le_refl _
        · exact Nat.le_trans hle (ih q' hfar p hpr)
      · rw [if_neg hle] at h2
        have hq : q = q' := by cases h2; rfl
        subst hq
        rcases List.mem_cons.mp hp with hpa | hpr
        · exact hpa ▸ Nat.le_of_lt (Nat.lt_of_not_le hle)
        · exact ih q hfar p hpr

theorem primaryTokenGo_eq {α : Type} (ring : Ring α) (hne : ring ≠ []) :
    ∀ (probes : List Nat) (md : Nat) (mt : Option (Nat × α)),
      primaryTokenGo ring probes md mt = goSpec ring probes md mt := by
  intro probes
  induction probes with
  | nil => intro md mt; rfl
  | cons p rest ih =>
    intro md mt
    obtain ⟨t, ht⟩ := tokensCW_head_isSome ring p hne
    have hd : probeDist ring p = distance p t.1 := by
      unfold probeDist; rw [ht]
    have hgo : primaryTokenGo ring (p :: rest) md mt =
        if probeDist ring p < md then
          primaryTokenGo ring rest (probeDist ring p) (some t)
        else primaryTokenGo ring rest md mt := by
      rw [hd]
      simp only [primaryTokenGo, ht]
    rw [hgo]
    cases hfar : firstArgmin (probeDist ring) rest with
    | none =>
      have hrest : rest = [] := firstArgmin_eq_none_imp rest hfar
      subst hrest
      simp only [goSpec, firstArgmin, primaryTokenGo, ht]
    | some q' =>
      by_cases hle : probeDist ring p ≤ probeDist ring q'
      · have hfa : firstArgmin (probeDist ring) (p :: rest) = some p := by
          simp [firstArgmin, hfar, hle]
        by_cases hlt : probeDist ring p < md
        · rw [if_pos hlt, ih]
          simp only [goSpec, hfa, hfar]
          rw [if_neg (by omega : ¬ probeDist ring q' < probeDist ring p),
            if_pos hlt, ht]
        · rw [if_neg hlt, ih]
          simp only [goSpec, hfa, hfar]
          rw [if_neg (by omega : ¬ probeDist ring q' < md), if_neg hlt]
      · have hfa : firstArgmin (probeDist ring) (p :: rest) = some q' := by
          simp [firstArgmin, hfar, hle]
        have hq'p : probeDist ring q' < probeDist ring p := Nat.lt_of_not_le hle
        by_cases hlt : probeDist ring p < md
        · rw [if_pos hlt, ih]
          simp only [goSpec, hfa, hfar]
          rw [if_pos hq'p, if_pos (by omega : probeDist ring q' < md)]
        · rw [if_neg hlt, ih]
          simp only [goSpec, hfa, hfar]

theorem primary_token_nil {α : Type} (probes : List Nat) :
    primary_token ([] : Ring α) probes = none := by
  cases probes with
  | nil => rfl
  | cons p rest => rfl

/-- Claim C1 (amended): the lookup probes positions `p_i = h1 + i*h2` with
wraparound arithmetic, takes each probe's first clockwise node, measures the
wraparound distance, and returns the node of the first probe attaining the
overall minimal distance (strict `<` tie-breaking) provided that minimum is
strictly below `RingPosition::MAX`; when every probe's distance equals `MAX`
(possible only for a probe at `0` owned by a node at `MAX`) the lookup also
returns `None`, and on an empty ring it returns `None`. -/
theorem primary_node_claim {α : Type} (ring : Ring α) (h1 h2 k : Nat) :
    (ring ≠ [] →
      primary_token ring (positions h1 h2 k) =
        specPrimaryToken ring (positions h1 h2 k))
    ∧ primary_token ([] : Ring α) (positions h1 h2 k) = none
    ∧ (∀ q p, firstArgmin (probeDist ring) (positions h1 h2 k) = some q →
        p ∈ positions h1 h2 k → probeDist ring q ≤ probeDist ring p) := by
  refine ⟨?_, primary_token_nil _, ?_⟩
  · intro hne
    rw [primary_token, primaryTokenGo_eq ring hne, specPrimaryToken_eq_goSpec]
  · intro q p hq hp
    exact firstArgmin_min _ q hq p hp

/-- Witness for the amended C1 theorem: ring `{3 ↦ 7}`, probes from
`h1 = 1`, `h2 = 2`, three probes; the minimal-distance probe is `3`. -/
theorem primary_node_claim_witness :
    primary_token [((3 : Nat), (7 : Nat))] (positions 1 2 3) =
      specPrimaryToken [((3 : Nat), (7 : Nat))] (positions 1 2 3)
    ∧ probeDist [((3 : Nat), (7 : Nat))] 3 ≤ probeDist [((3 : Nat), (7 : Nat))] 1 :=
  ⟨(primary_node_claim [((3 : Nat), (7 : Nat))] 1 2 3).1 (by decide),
   (primary_node_claim [((3 : Nat), (7 : Nat))] 1 2 3).2.2 3 1 (by decide) (by decide)⟩

/-- Claim C1 counterexample: the ring holding one node at position `MAX` is
nonempty, yet for a key with both seeded hashes `0` every probe sits at `0`,
at distance exactly `MAX` from its owner, and the lookup returns `None`
instead of that minimal-distance node. -/
theorem primary_node_counterexample :
    primary_token [((MAXP : Nat), (0 : Nat))] (positions 0 0 23) = none
    ∧ ([((MAXP : Nat), (0 : Nat))] : Ring Nat) ≠ [] :=
  ⟨by decide, by decide⟩

/-- Claim C2 failing-input evaluation: on the ring `{20 ↦ 1, 60 ↦ 2}`, a key
whose default-seed position is `10` and whose probe hashes are
`(h1, h2) = (50, 0)` gets `replicas(key, 1) = [(20, 1)]` — the clockwise
successor of `position(key)` — while `node(key)`, the multi-probe lookup,
returns `(60, 2)`: the documented guarantee that the first replica equals
`node(key)` fails. -/
theorem replicas_divergence :
    (replicas [((20 : Nat), (1 : Nat)), (60, 2)] 10 1).head? = some (20, 1)
    ∧ primary_token [((20 : Nat), (1 : Nat)), (60, 2)]
        (positions 50 0 DEFAULT_PROBE_COUNT) = some (60, 2) :=
  ⟨by decide, by decide⟩

/-- Claim C4 failing-input evaluation: the ring `{10 ↦ 1}` does not contain
a node `2` whose position would be `20` (its only entry has a different node
value and a different position), yet `intervals` returns `Some [[10, 20)]`
rather than the claimed `None`. -/
theorem intervals_divergence :
    intervals [((10 : Nat), (1 : Nat))] 20 = some [⟨10, 20⟩]
    ∧ (1 : Nat) ≠ 2 ∧ (10 : Nat) ≠ 20 :=
  ⟨by decide, by decide, by decide⟩

/-- Claim C3 counterexample: on the one-node ring `{5 ↦ 0}` the ring has
only one distinct position and it equals the queried `pos = 5`, yet
`key_range` returns `[5, 5)` (the whole-ring range), not the claimed
default-start range `[0, 5)`. -/
theorem key_range_counterexample :
    key_range [((5 : Nat), (0 : Nat))] 5 = some ⟨5, 5⟩
    ∧ KeyRange.mk 5 5 ≠ KeyRange.mk 0 5 :=
  ⟨by decide, by decide⟩

theorem getLast?_filter_max {α : Type} (p : Nat × α → Bool) :
    ∀ (l : Ring α) (t : Nat × α), sortedRing l → (l.filter p).getLast? = some t →
      t ∈ l ∧ p t = true ∧ ∀ e ∈ l, p e = true → e.1 ≤ t.1 := by
  intro l
  induction l with
  | nil => intro t _ h; simp at h
  | cons a rest ih =>
    intro t hs h
    rcases List.pairwise_cons.mp hs with ⟨hlt, hrest⟩
    by_cases hpa : p a = true
    · rw [List.filter_cons_of_pos hpa] at h
      cases hfr : rest.filter p with
      | nil =>
        rw [hfr] at h
        simp at h
        subst h
        refine ⟨List.mem_cons_self _ _, hpa, ?_⟩
        intro e he hpe
        rcases List.mem_cons.mp he with hea | her
        · rw [hea]
        · exact absurd hpe (List.filter_eq_nil_iff.mp hfr e her)
      | cons b bl =>
        rw [hfr, List.getLast?_cons_cons, ← hfr] at h
        obtain ⟨htr, hpt, hmax⟩ := ih t hrest h
        refine ⟨List.mem_cons_of_mem a htr, hpt, ?_⟩
        intro e he hpe
        rcases List.mem_cons.mp he with hea | her
        · rw [hea]; exact Nat.le_of_lt (hlt t htr)
        · exact hmax e her hpe
    · rw [List.filter_cons_of_neg hpa] at h
      obtain ⟨htr, hpt, hmax⟩ := ih t hrest h
      refine ⟨List.mem_cons_of_mem a htr, hpt, ?_⟩
      intro e he hpe
      rcases List.mem_cons.mp he with hea | her
      · rw [hea] at hpe; exact absurd hpe hpa
      · exact hmax e her hpe

theorem getLast?_max {α : Type} (l : Ring α) (t : Nat × α) (hs : sortedRing l)
    (h : l.getLast? = some t) : t ∈ l ∧ ∀ e ∈ l, e.1 ≤ t.1 := by
  have hft : l.filter (fun _ => true) = l := List.filter_eq_self.mpr (fun a _ => rfl)
  obtain ⟨h1, _, h3⟩ := getLast?_filter_max (fun _ => true) l t hs (by rw [hft]; exact h)
  exact ⟨h1, fun e he => h3 e he rfl⟩

/-- Claim C3 (amended): `key_range(pos)` is absent iff the ring is empty;
when present the range ends at `pos` and starts at the position of the last
entry of the wrapping clockwise traversal from `pos`: the greatest stored
position strictly below `pos` when one exists, otherwise the greatest stored
position overall — in particular, when the ring's only position equals
`pos`, the start is `pos` itself, not the dead-code default `0`. -/
theorem key_range_claim {α : Type} (ring : Ring α) (pos : Nat)
    (hs : sortedRing ring) :
    (key_range ring pos = none ↔ ring = [])
    ∧ (∀ r, key_range ring pos = some r →
        r.stop = pos
        ∧ r.start ∈ ring.map Prod.fst
        ∧ ((∃ k ∈ ring.map Prod.fst, k < pos) →
            r.start < pos ∧ ∀ k ∈ ring.map Prod.fst, k < pos → k ≤ r.start)
        ∧ ((∀ k ∈ ring.map Prod.fst, pos ≤ k) →
            ∀ k ∈ ring.map Prod.fst, k ≤ r.start)) := by
  constructor
  · cases ring with
    | nil => simp [key_range]
    | cons a rest => simp [key_range]
  · intro r hr
    have hne : ring ≠ [] := by
      intro hcontra
      subst hcontra
      simp [key_range] at hr
    have hemp : ring.isEmpty = false := by
      cases ring with
      | nil => exact absurd rfl hne
      | cons a rest => rfl
    obtain ⟨t, ht⟩ : ∃ t, (tokensCW ring pos).getLast? = some t := by
      cases hgl : (tokensCW ring pos).getLast? with
      | none =>
        exact absurd (List.getLast?_eq_none_iff.mp hgl) (tokensCW_ne_nil ring pos hne)
      | some t => exact ⟨t, rfl⟩
    have hkr : key_range ring pos = some ⟨t.1, pos⟩ := by
      simp [key_range, hemp, ht]
    rw [hkr] at hr
    have hrt : r = ⟨t.1, pos⟩ := (Option.some.inj hr).symm
    subst hrt
    by_cases hB : ring.filter (fun e => decide (e.1 < pos)) = []
    · have hAfull : ring.filter (fun e => decide (pos ≤ e.1)) = ring := by
        apply List.filter_eq_self.mpr
        intro e he
        have hnot := List.filter_eq_nil_iff.mp hB e he
        simpa using Nat.le_of_not_lt (by simpa using hnot)
      have ht2 : ring.getLast? = some t := by
        have heq : tokensCW ring pos = ring := by
          unfold tokensCW
          rw [hB, hAfull, List.append_nil]
        rw [← heq]
        exact ht
      obtain ⟨htm, hmax⟩ := getLast?_max ring t hs ht2
      refine ⟨rfl, List.mem_map.mpr ⟨t, htm, rfl⟩, ?_, ?_⟩
      · rintro ⟨k, hk, hklt⟩
        obtain ⟨e, he, hek⟩ := List.mem_map.mp hk
        have := List.filter_eq_nil_iff.mp hB e he
        rw [hek] at this
        exact absurd hklt (by simpa using this)
      · intro _ k hk
        obtain ⟨e, he, hek⟩ := List.mem_map.mp hk
        rw [← hek]
        exact hmax e he
    · have ht' := ht
      unfold tokensCW at ht'
      rw [List.getLast?_append_of_ne_nil _ hB] at ht'
      obtain ⟨htm, hpt, hmax⟩ := getLast?_filter_max _ ring t hs ht'
      have htlt : t.1 < pos := by simpa using hpt
      refine ⟨rfl, List.mem_map.mpr ⟨t, htm, rfl⟩, ?_, ?_⟩
      · intro _
        refine ⟨htlt, ?_⟩
        intro k hk hklt
        obtain ⟨e, he, hek⟩ := List.mem_map.mp hk
        rw [← hek]
        exact hmax e he (by rw [hek]; exact decide_eq_true hklt)
      · intro hall k hk
        exact absurd (hall t.1 (List.mem_map.mpr ⟨t, htm, rfl⟩)) (Nat.not_le.mpr htlt)

/-- Witness for the amended C3 theorem at the sorted ring `{3 ↦ 10, 7 ↦ 11}`
and position `5`, where `key_range` yields `[3, 5)`. -/
theorem key_range_claim_witness :
    (key_range [((3 : Nat), (10 : Nat)), (7, 11)] 5 = none ↔
        ([((3 : Nat), (10 : Nat)), (7, 11)] : Ring Nat) = [])
    ∧ (KeyRange.mk 3 5).stop = 5 :=
  ⟨(key_range_claim [((3 : Nat), (10 : Nat)), (7, 11)] 5 (by simp [sortedRing])).1,
   ((key_range_claim [((3 : Nat), (10 : Nat)), (7, 11)] 5
      (by simp [sortedRing])).2 ⟨3, 5⟩ (by decide)).1⟩

/-- Claim C5: clockwise traversal is the ascending entries at or after
`start` followed by the ascending entries before it; counter-clockwise
traversal is the descending entries at or before `start` followed by the
descending entries after it; each stored entry appears exactly once (the
traversals are duplicate-free permutations of the ring); and the spec's
three-node scenario at positions `0`, `MAX/2`, `MAX` holds. -/
theorem tokens_claim {α : Type} (ring : Ring α) (start : Nat)
    (hs : sortedRing ring) :
    (tokensCW ring start).Perm ring
    ∧ (tokensCW ring start).Nodup
    ∧ List.Pairwise (fun a b => a.1 < b.1) (ring.filter (fun e => decide (start ≤ e.1)))
    ∧ List.Pairwise (fun a b => a.1 < b.1) (ring.filter (fun e => decide (e.1 < start)))
    ∧ (tokensCCW ring start).Perm ring
    ∧ (tokensCCW ring start).Nodup
    ∧ List.Pairwise (fun a b => b.1 < a.1)
        ((ring.filter (fun e => decide (e.1 ≤ start))).reverse)
    ∧ List.Pairwise (fun a b => b.1 < a.1)
        ((ring.filter (fun e => decide (start < e.1))).reverse)
    ∧ tokensCW [((0 : Nat), (1 : Nat)), (MAXP / 2, 2), (MAXP, 3)] 1 =
        [(MAXP / 2, 2), (MAXP, 3), (0, 1)] := by
  have hndr : ring.Nodup := by
    apply List.Pairwise.imp ?_ hs
    intro a b hab heq
    rw [heq] at hab
    exact Nat.lt_irrefl _ hab
  have hcw : (tokensCW ring start).Perm ring := by
    unfold tokensCW
    have hcongr : ring.filter (fun e => decide (e.1 < start)) =
        ring.filter (fun e => !decide (start ≤ e.1)) := by
      apply List.filter_congr
      intro x _
      by_cases h : x.1 < start
      · simp [h, Nat.not_le.mpr h]
      · simp [h, Nat.le_of_not_lt h]
    rw [hcongr]
    exact List.filter_append_perm _ ring
  have hccw : (tokensCCW ring start).Perm ring := by
    unfold tokensCCW
    have hcongr2 : ring.filter (fun e => decide (start < e.1)) =
        ring.filter (fun e => !decide (e.1 ≤ start)) := by
      apply List.filter_congr
      intro x _
      by_cases h : start < x.1
      · simp [h, Nat.not_le.mpr h]
      · simp [h, Nat.le_of_not_lt h]
    rw [hcongr2]
    exact (List.Perm.append (List.reverse_perm _) (List.reverse_perm _)).trans
      (List.filter_append_perm _ ring)
  refine ⟨hcw, hcw.nodup_iff.mpr hndr,
    List.Pairwise.sublist (List.filter_sublist ring) hs,
    List.Pairwise.sublist (List.filter_sublist ring) hs,
    hccw, hccw.nodup_iff.mpr hndr,
    List.pairwise_reverse.mpr (List.Pairwise.sublist (List.filter_sublist ring) hs),
    List.pairwise_reverse.mpr (List.Pairwise.sublist (List.filter_sublist ring) hs),
    by decide⟩

/-- Witness for the C5 theorem at a concrete sorted two-node ring. -/
theorem tokens_claim_witness :
    (tokensCW [((1 : Nat), (5 : Nat)), (4, 6)] 3).Perm [((1 : Nat), (5 : Nat)), (4, 6)]
    ∧ (tokensCCW [((1 : Nat), (5 : Nat)), (4, 6)] 3).Perm
        [((1 : Nat), (5 : Nat)), (4, 6)] :=
  ⟨(tokens_claim [((1 : Nat), (5 : Nat)), (4, 6)] 3 (by simp [sortedRing])).1,
   (tokens_claim [((1 : Nat), (5 : Nat)), (4, 6)] 3 (by simp [sortedRing])).2.2.2.2.1⟩

end Mpchash
